import Mathlib

/-!
Shallow embedding of the annotation reconciliation and ordering core of the
apple-books-annotation-import plugin (source files: src/database.ts,
src/unnamed/part_002 = markdown.ts, src/unnamed/part_003 = types.ts,
src/unnamed/part_006 and part_007 = main.ts variants).

Strings are modelled as lists of characters.  JavaScript semantics that the
embedded functions rely on are reproduced explicitly:
`String.prototype.substring` (argument swapping and clamping), `split` on a
single-character separator, the global regex replace of bracketed segments,
the global digit-run match, truthiness of `x || y` on strings and arrays, and
the in-place, stable `Array.prototype.sort`.
-/

abbrev Str := List Char

/-- JavaScript `s.substring(a, b)`: clamps both indices to the string length
and swaps them when `a > b`, returning the characters in `[lo, hi)`. -/
def jsSubstring (l : Str) (a b : Nat) : Str :=
  (l.take (max a b)).drop (min a b)

/-- JavaScript `s.split(sep)` for a single-character separator.
`split` of the empty string is `[""]`. -/
def splitOnChar (sep : Char) : Str → List Str
  | [] => [[]]
  | c :: rest =>
    match splitOnChar sep rest with
    | [] => [[c]]
    | h :: t => if c = sep then [] :: h :: t else (c :: h) :: t

/-- Worker for `removeBrackets`.  The second argument is `some buf` while we
are inside a candidate `[...]` group, `buf` holding (reversed) the characters
read since the opening bracket.  An opening bracket whose group is never
closed is emitted verbatim, matching the regex `/\[[^\]]*\]/g` which leaves
unmatched text untouched. -/
def rbAux : Str → Option Str → Str
  | [], none => []
  | [], some buf => '[' :: buf.reverse
  | c :: rest, none =>
    if c = '[' then rbAux rest (some []) else c :: rbAux rest none
  | c :: rest, some buf =>
    if c = ']' then rbAux rest none else rbAux rest (some (c :: buf))

/-- JavaScript `part.replace(/\[[^\]]*\]/g, '')`: delete every group running
from a `[` to the first `]` after it. -/
def removeBrackets (l : Str) : Str := rbAux l none

/-- Worker for `digitRuns`: the second argument holds, reversed, the digit
run currently being read. -/
def drAux : Str → Str → List Str
  | [], cur => if cur.isEmpty then [] else [cur.reverse]
  | c :: rest, cur =>
    if c.isDigit then drAux rest (c :: cur)
    else if cur.isEmpty then drAux rest [] else cur.reverse :: drAux rest []

/-- JavaScript `cleanPart.match(/\d+/g) || []`: the maximal runs of decimal
digits, in order.  Every returned run is nonempty. -/
def digitRuns (l : Str) : List Str := drAux l []

/-- JavaScript `parseInt(run, 10)` on a digit run. -/
def parseDigits (s : Str) : Nat :=
  s.foldl (fun a c => 10 * a + (c.toNat - 48)) 0

/-- The decimal digit character for `d < 10`. -/
def digitChar (d : Nat) : Char :=
  match d with
  | 0 => '0' | 1 => '1' | 2 => '2' | 3 => '3' | 4 => '4'
  | 5 => '5' | 6 => '6' | 7 => '7' | 8 => '8' | _ => '9'

/-- The decimal representation of a natural number, most significant digit
first (the form in which integers occur inside a location identifier). -/
def natDigits (n : Nat) : Str :=
  if n < 10 then [digitChar n]
  else natDigits (n / 10) ++ [digitChar (n % 10)]
termination_by n
decreasing_by
  exact Nat.div_lt_self (by omega) (by omega)

/-- One annotation row as consumed by the core (types.ts `Annotation`).
`Date`-valued fields are carried as opaque timestamps. -/
structure Annotation where
  selectedText : Str
  note : Option Str
  location : Option Str
  physicalLocation : Option Int
  annotationType : Option Int
  annotationStyle : Option Int
  isUnderline : Bool
  creationDate : Option Int
  modificationDate : Option Int
  uuid : Option Str
  representativeText : Option Str
deriving DecidableEq

namespace AppleBooksDatabase

/-- database.ts `parseCFIForSorting`: strip the `epubcfi(` wrapper, split on
`!`, delete bracketed labels per part, and collect every digit run as a
number; any string without the wrapper, and any string yielding no digits,
falls back to `[0]`.  (The JavaScript `try`/`catch` cannot fire: every step
is total.) -/
def parseCFIForSorting (cfi : Str) : List Nat :=
  if ("epubcfi(".toList).isPrefixOf cfi then
    let content := jsSubstring cfi 8 (cfi.length - 1)
    let parts := splitOnChar '!' content
    let numbers := parts.flatMap (fun part => (digitRuns (removeBrackets part)).map parseDigits)
    if numbers.isEmpty then [0] else numbers
  else
    [0]

/-- The comparator body of database.ts `sortAnnotationsByCFI`: compare the
two key sequences element by element, returning the first nonzero
difference, and fall back to the difference of the lengths. -/
def cmpNatList : List Nat → List Nat → Int
  | [], b => -(b.length : Int)
  | a, [] => (a.length : Int)
  | x :: xs, y :: ys => if x ≠ y then (x : Int) - (y : Int) else cmpNatList xs ys

/-- The sort key of one annotation: `parseCFIForSorting(a.location || '')`. -/
def annotationSortKey (a : Annotation) : List Nat :=
  parseCFIForSorting (a.location.getD [])

/-- The full comparator passed to `Array.prototype.sort`. -/
def compareCFI (a b : Annotation) : Int :=
  cmpNatList (annotationSortKey a) (annotationSortKey b)

/-- The non-strict order induced by the comparator. -/
def cfiLE (a b : Annotation) : Prop := compareCFI a b ≤ 0

instance : DecidableRel cfiLE := fun a b =>
  inferInstanceAs (Decidable (compareCFI a b ≤ 0))

/-- database.ts `sortAnnotationsByCFI` as a value transformation:
`Array.prototype.sort` is stable (ES2019), so its observable output is the
stable sort by `compareCFI`, here realised by stable insertion sort. -/
def sortAnnotationsByCFI (annotations : List Annotation) : List Annotation :=
  annotations.insertionSort cfiLE

/-- The observable effect of one call `AppleBooksDatabase.sortAnnotationsByCFI(xs)`.
`Array.prototype.sort` sorts the receiver in place and returns a reference
to the same array, so the returned sequence and the contents of the caller's
array after the call are one and the same sorted list. -/
structure SortCallResult where
  ret : List Annotation
  argAfter : List Annotation
deriving DecidableEq

/-- The call-level model of `sortAnnotationsByCFI`: returned value together
with the argument array's contents after the call. -/
def sortAnnotationsByCFIEffect (annotations : List Annotation) : SortCallResult :=
  { ret := sortAnnotationsByCFI annotations
    argAfter := sortAnnotationsByCFI annotations }

/-- JavaScript `texts.join('\n')`. -/
def joinNL : List Str → Str
  | [] => []
  | [t] => t
  | t :: rest => t ++ '\n' :: joinNL rest

/-- Is this row an unanchored fragment (`location === null && physicalLocation === null`)? -/
def isNullLoc (a : Annotation) : Prop :=
  a.location = none ∧ a.physicalLocation = none

instance (a : Annotation) : Decidable (isNullLoc a) :=
  inferInstanceAs (Decidable (_ ∧ _))

/-- The loop of database.ts `groupConsecutiveNullLocationAnnotations`; the
second argument is the pending `nullLocationGroup`. -/
def gcAux : List Annotation → List Annotation → List Annotation
  | [], group =>
    match group with
    | [] => []
    | g :: gs => [{ g with selectedText := joinNL ((g :: gs).map (·.selectedText)) }]
  | ann :: rest, group =>
    if isNullLoc ann then
      gcAux rest (group ++ [ann])
    else
      match group with
      | [] => ann :: gcAux rest []
      | _ :: _ =>
        { ann with selectedText := joinNL ((group ++ [ann]).map (·.selectedText)) }
          :: gcAux rest []

/-- database.ts `groupConsecutiveNullLocationAnnotations`. -/
def groupConsecutiveNullLocationAnnotations (annotations : List Annotation) : List Annotation :=
  gcAux annotations []

/-- The coalescing pass as described by the specification (section 4.3):
split off the pending group of consecutive unanchored fragments, merge it
into the next anchored record (or, at the end of input, emit it on the first
fragment's fields), and recurse on the remainder. -/
def coalesceSpec (l : List Annotation) : List Annotation :=
  match h : l.dropWhile (fun a => decide (isNullLoc a)) with
  | [] =>
    match l with
    | [] => []
    | g :: gs => [{ g with selectedText := joinNL ((g :: gs).map (·.selectedText)) }]
  | anchor :: rest =>
    let frag := l.takeWhile (fun a => decide (isNullLoc a))
    (if frag.isEmpty then anchor
     else { anchor with selectedText := joinNL ((frag ++ [anchor]).map (·.selectedText)) })
      :: coalesceSpec rest
termination_by l.length
decreasing_by
  have hle : (anchor :: rest).length ≤ l.length := by
    rw [← h]; exact (List.dropWhile_sublist _).length_le
  simp only [List.length_cons] at hle
  omega

end AppleBooksDatabase

/-- JavaScript `s.toLowerCase()` (ASCII case mapping). -/
def toLowerStr (s : Str) : Str := s.map Char.toLower

/-- JavaScript `hay.includes(needle)`. -/
def isSubstr (needle : Str) : Str → Bool
  | [] => needle.isEmpty
  | c :: t => needle.isPrefixOf (c :: t) || isSubstr needle t

/-- The first match of `/\[([^\]]+)\]/` — the content of the first bracketed
group that is nonempty and closed; scanning advances one character at a time
past failed candidate positions, exactly as the regex engine does. -/
def firstBracket : Str → Option Str
  | [] => none
  | c :: rest =>
    if c = '[' then
      let cap := rest.takeWhile (fun x => x ≠ ']')
      if cap.isEmpty ∨ ']' ∉ rest then firstBracket rest else some cap
    else firstBracket rest

/-- The first match of `/pat(\d+)/` on a lower-cased string: the digit run
following the first occurrence of `pat` that is immediately followed by at
least one digit. -/
def digitsAfterPat (pat : Str) : Str → Option Str
  | [] => none
  | c :: t =>
    if pat.isPrefixOf (c :: t) then
      let ds := ((c :: t).drop pat.length).takeWhile Char.isDigit
      if ds.isEmpty then digitsAfterPat pat t else some ds
    else digitsAfterPat pat t

namespace MarkdownGenerator

/-- The match of `/^c(\d+)/` on the lower-cased chapter id. -/
def cNumDigits (lower : Str) : Option Str :=
  match lower with
  | 'c' :: rest =>
    let ds := rest.takeWhile Char.isDigit
    if ds.isEmpty then none else some ds
  | _ => none

/-- The ordered rule chain of markdown.ts `extractChapterFromCFI` applied to
the content of the first bracketed segment. -/
def classifyChapterId (chapterId : Str) : Str :=
  let lower := toLowerStr chapterId
  match digitsAfterPat "chapter_".toList lower with
  | some ds => "Chapter ".toList ++ ds
  | none =>
  match cNumDigits lower with
  | some ds => "Chapter ".toList ++ ds
  | none =>
  if isSubstr "preface".toList lower || isSubstr "foreword".toList lower then
    "Preface".toList
  else if isSubstr "introduction".toList lower || isSubstr "intro".toList lower then
    "Introduction".toList
  else if isSubstr "appendix".toList lower then
    "Appendix".toList
  else if isSubstr "title".toList lower then
    "Title Page".toList
  else if isSubstr "text".toList lower then
    if isSubstr "text-2".toList lower then "Preface".toList
    else if isSubstr "text-3".toList lower then "Preface (continued)".toList
    else if isSubstr "text-5".toList lower then "How to Begin".toList
    else "Text Section".toList
  else
    match chapterId.map (fun c => if c = '_' ∨ c = '-' then ' ' else c) with
    | [] => []
    | c :: rest => Char.toUpper c :: toLowerStr rest

/-- markdown.ts `extractChapterFromCFI`: `null` for an empty string or when
no bracketed segment matches, otherwise the classified label.  (The
JavaScript `try`/`catch` cannot fire: every step is total.) -/
def extractChapterFromCFI (cfi : Str) : Option Str :=
  if cfi.isEmpty then none
  else
    match firstBracket cfi with
    | none => none
    | some chapterId => some (classifyChapterId chapterId)

end MarkdownGenerator

/-- types.ts `BookDetail` (the store-derived book metadata record).
`Date`-valued and numeric fields are carried as opaque values. -/
structure BookDetail where
  assetId : Str
  title : Str
  author : Option Str
  description : Option Str
  epubId : Option Str
  path : Option Str
  isbn : Option Str
  language : Option Str
  publisher : Option Str
  publicationDate : Option Str
  cover : Option Str
  genre : Option Str
  genres : Option Str
  year : Option Str
  pageCount : Option Int
  rating : Option Int
  comments : Option Str
  readingProgress : Option Int
  creationDate : Option Int
  lastOpenDate : Option Int
  modificationDate : Option Int
  rights : Option Str
  subjects : Option (List Str)
deriving DecidableEq

/-- The shape of the record returned by database.ts `getEpubMetadata`
(`parseOPFMetadata` / `parseITunesMetadata`): the seven always-initialised
fields plus `title` and `author`, which the OPF parser also sets when the
container provides them. -/
structure EpubMetadata where
  title : Option Str
  author : Option Str
  isbn : Option Str
  language : Option Str
  publisher : Option Str
  publicationDate : Option Str
  rights : Option Str
  subjects : Option (List Str)
  cover : Option Str
deriving DecidableEq

/-- JavaScript `a || b` for string-or-null values: `null` and the empty
string are falsy. -/
def jsOrStr (a b : Option Str) : Option Str :=
  match a with
  | some s => if s.isEmpty then b else some s
  | none => b

/-- JavaScript `a || b` for array-or-null values: every array, empty or not,
is truthy. -/
def jsOrList (a b : Option (List Str)) : Option (List Str) :=
  match a with
  | some l => some l
  | none => b

/-- The `enrichedBook` computation of main.ts `importAllBooks`: when EPUB
metadata was obtained, spread the store-derived book and override exactly the
seven fields isbn, language, publisher, publicationDate, rights, subjects and
cover with `epubMetadata.field || book.field`; otherwise keep the book. -/
def mergeEpubMetadata (book : BookDetail) (epubMetadata : Option EpubMetadata) : BookDetail :=
  match epubMetadata with
  | none => book
  | some m =>
    { book with
      isbn := jsOrStr m.isbn book.isbn
      language := jsOrStr m.language book.language
      publisher := jsOrStr m.publisher book.publisher
      publicationDate := jsOrStr m.publicationDate book.publicationDate
      rights := jsOrStr m.rights book.rights
      subjects := jsOrList m.subjects book.subjects
      cover := jsOrStr m.cover book.cover }

/-! ## Sample records used by witnesses and counterexamples -/

/-- An annotation row with the given text, location and physical location,
all other columns null / default. -/
def mkAnn (text : Str) (loc : Option Str) (phys : Option Int) : Annotation :=
  { selectedText := text, note := none, location := loc, physicalLocation := phys,
    annotationType := none, annotationStyle := none, isUnderline := false,
    creationDate := none, modificationDate := none, uuid := none,
    representativeText := none }

def annA : Annotation := mkAnn "A".toList none none

def annB : Annotation := mkAnn "B".toList none none

def annC : Annotation :=
  { mkAnn "C".toList (some "epubcfi(/6/4[chap1]!/2,:0,:1)".toList) (some 5) with
    note := some "anchor note".toList }

def annP45 : Annotation := mkAnn "x".toList (some "epubcfi(/2)".toList) (some 45)

def annP12 : Annotation := mkAnn "y".toList (some "epubcfi(/4)".toList) (some 12)

def annNoPfx : Annotation := mkAnn "z".toList (some "page 12".toList) none

def sampleBook : BookDetail :=
  { assetId := "A1".toList, title := "Base Title".toList,
    author := some "Base Author".toList, description := none, epubId := none,
    path := none, isbn := none, language := none, publisher := none,
    publicationDate := none, cover := none, genre := none, genres := none,
    year := none, pageCount := none, rating := none, comments := none,
    readingProgress := none, creationDate := none, lastOpenDate := none,
    modificationDate := none, rights := none, subjects := none }

def sampleEpub : EpubMetadata :=
  { title := some "Epub Title".toList, author := some "Epub Author".toList,
    isbn := some "999".toList, language := none, publisher := none,
    publicationDate := none, rights := none, subjects := none, cover := none }

/-! ## Lemmas about the comparator -/

namespace AppleBooksDatabase

theorem cmpNatList_neg (a b : List Nat) : cmpNatList b a = -cmpNatList a b := by
  induction a generalizing b with
  | nil =>
    cases b with
    | nil => simp [cmpNatList]
    | cons y ys => simp [cmpNatList]
  | cons x xs ih =>
    cases b with
    | nil => simp [cmpNatList]
    | cons y ys =>
      simp only [cmpNatList]
      by_cases hxy : x = y
      · subst hxy
        simp [ih]
      · have hyx : y ≠ x := fun h => hxy h.symm
        simp only [if_pos hxy, if_pos hyx, ne_eq]
        omega

theorem cmpNatList_trans (a b c : List Nat)
    (hab : cmpNatList a b ≤ 0) (hbc : cmpNatList b c ≤ 0) :
    cmpNatList a c ≤ 0 := by
  induction a generalizing b c with
  | nil =>
    cases c with
    | nil => simp [cmpNatList]
    | cons z zs =>
      simp only [cmpNatList, List.length_cons]
      omega
  | cons x xs ih =>
    cases b with
    | nil =>
      exfalso
      simp only [cmpNatList] at hab
      have : (0 : Int) < (x :: xs).length := by
        simp only [List.length_cons]
        omega
      omega
    | cons y ys =>
      cases c with
      | nil =>
        exfalso
        simp only [cmpNatList] at hbc
        have : (0 : Int) < (y :: ys).length := by
          simp only [List.length_cons]
          omega
        omega
      | cons z zs =>
        simp only [cmpNatList, ne_eq] at hab hbc ⊢
        by_cases hxy : x = y <;> by_cases hyz : y = z
        · subst hxy; subst hyz
          simp only [if_neg (fun h => absurd rfl h)] at hab hbc ⊢
          exact ih ys zs hab hbc
        · subst hxy
          simp only [if_neg (fun h => absurd rfl h)] at hab
          simp only [if_pos hyz] at hbc ⊢
          exact hbc
        · subst hyz
          simp only [if_pos hxy] at hab ⊢
          simp only [if_neg (fun h => absurd rfl h)] at hbc
          exact hab
        · simp only [if_pos hxy] at hab
          simp only [if_pos hyz] at hbc
          have hxz : x ≠ z := by omega
          simp only [if_pos hxz]
          omega

instance : IsTotal Annotation cfiLE :=
  ⟨fun a b => by
    unfold cfiLE compareCFI
    have h := cmpNatList_neg (annotationSortKey a) (annotationSortKey b)
    omega⟩

instance : IsTrans Annotation cfiLE :=
  ⟨fun a b c hab hbc => cmpNatList_trans _ _ _ hab hbc⟩

/-- The sorted output is pairwise ordered by the comparator. -/
theorem sortAnnotationsByCFI_pairwise (l : List Annotation) :
    (sortAnnotationsByCFI l).Pairwise cfiLE :=
  List.sorted_insertionSort cfiLE l

/-- The sorted output is a permutation of the input. -/
theorem sortAnnotationsByCFI_perm (l : List Annotation) :
    (sortAnnotationsByCFI l).Perm l :=
  List.perm_insertionSort cfiLE l

/-! ## Lemmas about parseCFIForSorting -/

/-- Without the `epubcfi(` wrapper, the parser yields the fallback key. -/
theorem parseCFIForSorting_of_no_wrapper (cfi : Str)
    (h : ¬ (("epubcfi(".toList).isPrefixOf cfi = true)) :
    parseCFIForSorting cfi = [0] := by
  unfold parseCFIForSorting
  simp only [h, if_false]
  simp [h]

theorem mem_splitOnChar {sep : Char} {l p : Str} {x : Char}
    (hp : p ∈ splitOnChar sep l) (hx : x ∈ p) : x ∈ l := by
  induction l generalizing p with
  | nil =>
    simp only [splitOnChar, List.mem_singleton] at hp
    subst hp
    simp at hx
  | cons c rest ih =>
    simp only [splitOnChar] at hp
    split at hp
    · simp only [List.mem_singleton] at hp
      subst hp
      simp only [List.mem_singleton] at hx
      simp [hx]
    · rename_i h t heq
      split at hp
      · rcases List.mem_cons.mp hp with h1 | h1
        · subst h1; simp at hx
        · have : x ∈ rest := ih (by rw [heq]; exact h1) hx
          simp [this]
      · rcases List.mem_cons.mp hp with h1 | h1
        · subst h1
          rcases List.mem_cons.mp hx with h2 | h2
          · simp [h2]
          · have : x ∈ rest := ih (by rw [heq]; exact List.mem_cons_self h t) h2
            simp [this]
        · have : x ∈ rest := ih (by rw [heq]; exact List.mem_cons_of_mem h h1) hx
          simp [this]

theorem mem_rbAux {l : Str} {buf : Option Str} {x : Char} (hx : x ∈ rbAux l buf) :
    x ∈ l ∨ x = '[' ∨ x ∈ buf.getD [] := by
  induction l generalizing buf with
  | nil =>
    cases buf with
    | none => simp [rbAux] at hx
    | some b =>
      simp only [rbAux, List.mem_cons, List.mem_reverse] at hx
      rcases hx with h | h
      · exact Or.inr (Or.inl h)
      · exact Or.inr (Or.inr (by simpa using h))
  | cons c rest ih =>
    cases buf with
    | none =>
      simp only [rbAux] at hx
      split at hx
      · rcases ih hx with h | h | h
        · exact Or.inl (List.mem_cons_of_mem _ h)
        · exact Or.inr (Or.inl h)
        · simp at h
      · rcases List.mem_cons.mp hx with h | h
        · exact Or.inl (by simp [h])
        · rcases ih h with h1 | h1 | h1
          · exact Or.inl (List.mem_cons_of_mem _ h1)
          · exact Or.inr (Or.inl h1)
          · simp at h1
    | some b =>
      simp only [rbAux] at hx
      split at hx
      · rcases ih hx with h | h | h
        · exact Or.inl (List.mem_cons_of_mem _ h)
        · exact Or.inr (Or.inl h)
        · simp at h
      · rcases ih hx with h | h | h
        · exact Or.inl (List.mem_cons_of_mem _ h)
        · exact Or.inr (Or.inl h)
        · simp only [Option.getD_some] at h
          rcases List.mem_cons.mp h with h2 | h2
          · exact Or.inl (by simp [h2])
          · exact Or.inr (Or.inr (by simpa using h2))

/-- Characters surviving bracket removal come from the input. -/
theorem mem_removeBrackets {l : Str} {x : Char} (hx : x ∈ removeBrackets l) :
    x ∈ l ∨ x = '[' := by
  rcases mem_rbAux hx with h | h | h
  · exact Or.inl h
  · exact Or.inr h
  · simp at h

theorem drAux_no_digits {l cur : Str} (h : ∀ c ∈ l, ¬ c.isDigit) :
    drAux l cur = if cur.isEmpty then [] else [cur.reverse] := by
  induction l generalizing cur with
  | nil => rfl
  | cons c rest ih =>
    have hcb : c.isDigit = false := by
      simpa using h c (List.mem_cons_self c rest)
    have hrest : ∀ x ∈ rest, ¬ x.isDigit := fun x hx => h x (List.mem_cons_of_mem _ hx)
    simp only [drAux, hcb, Bool.false_eq_true, if_false]
    rw [ih hrest]
    simp

/-- A string with no decimal digit yields no digit runs. -/
theorem digitRuns_eq_nil {l : Str} (h : ∀ c ∈ l, ¬ c.isDigit) : digitRuns l = [] := by
  unfold digitRuns
  rw [drAux_no_digits h]
  rfl

/-- A string that contains no decimal digit after its interior is split on
`!` and every bracketed label is stripped parses to the fallback key:
"contains no digits after label-stripping". -/
theorem parseCFIForSorting_of_no_digits_stripped (cfi : Str)
    (h : ∀ part ∈ splitOnChar '!' (jsSubstring cfi 8 (cfi.length - 1)),
          ∀ c ∈ removeBrackets part, ¬ c.isDigit) :
    parseCFIForSorting cfi = [0] := by
  unfold parseCFIForSorting
  split
  · have hflat : (splitOnChar '!' (jsSubstring cfi 8 (cfi.length - 1))).flatMap
        (fun part => (digitRuns (removeBrackets part)).map parseDigits) = [] := by
      rw [List.flatMap_eq_nil_iff]
      intro part hpart
      rw [digitRuns_eq_nil (h part hpart), List.map_nil]
    simp [hflat]
  · rfl

/-- A string containing no decimal digit at all parses to the fallback key. -/
theorem parseCFIForSorting_of_no_digits (cfi : Str)
    (h : ∀ c ∈ cfi, ¬ c.isDigit) : parseCFIForSorting cfi = [0] := by
  apply parseCFIForSorting_of_no_digits_stripped
  intro part hpart c hc
  rcases mem_removeBrackets hc with h1 | h1
  · have hcc : c ∈ cfi := by
      have h2 : c ∈ jsSubstring cfi 8 (cfi.length - 1) := mem_splitOnChar hpart h1
      unfold jsSubstring at h2
      exact List.Sublist.mem (List.Sublist.mem h2 (List.drop_sublist _ _))
        (List.take_sublist _ _)
    exact h c hcc
  · subst h1
    decide

end AppleBooksDatabase

/-! ## Structural lemmas for the wrapped-identifier parse (claim C3) -/

namespace AppleBooksDatabase

theorem splitOnChar_ne_nil (sep : Char) (l : Str) : splitOnChar sep l ≠ [] := by
  cases l with
  | nil => simp [splitOnChar]
  | cons c rest =>
    simp only [splitOnChar]
    split
    · simp
    · split <;> simp

theorem splitOnChar_of_not_mem {sep : Char} {l : Str} (h : sep ∉ l) :
    splitOnChar sep l = [l] := by
  induction l with
  | nil => rfl
  | cons c rest ih =>
    have hc : c ≠ sep := by
      intro hcs
      exact h (by simp [hcs])
    have hrest : sep ∉ rest := fun hs => h (List.mem_cons_of_mem _ hs)
    simp only [splitOnChar, ih hrest]
    simp [hc]

theorem splitOnChar_append {sep : Char} {a b : Str} (h : sep ∉ a) :
    splitOnChar sep (a ++ sep :: b) = a :: splitOnChar sep b := by
  induction a with
  | nil =>
    simp only [List.nil_append, splitOnChar]
    cases hsb : splitOnChar sep b with
    | nil => exact absurd hsb (splitOnChar_ne_nil sep b)
    | cons x t => simp
  | cons c as ih =>
    have hc : c ≠ sep := by
      intro hcs
      exact h (by simp [hcs])
    have has : sep ∉ as := fun hs => h (List.mem_cons_of_mem _ hs)
    simp only [List.cons_append, splitOnChar, List.append_eq]
    rw [ih has]
    simp [hc]

theorem rbAux_append_none {d rest : Str} (h : '[' ∉ d) :
    rbAux (d ++ rest) none = d ++ rbAux rest none := by
  induction d with
  | nil => rfl
  | cons c ds ih =>
    have hc : c ≠ '[' := by
      intro hcs
      exact h (by simp [hcs])
    have hds : '[' ∉ ds := fun hs => h (List.mem_cons_of_mem _ hs)
    simp only [List.cons_append, rbAux, if_neg hc, List.append_eq, ih hds]

theorem rbAux_close {label rest : Str} (h : ']' ∉ label) (buf : Str) :
    rbAux (label ++ ']' :: rest) (some buf) = rbAux rest none := by
  induction label generalizing buf with
  | nil => simp [rbAux]
  | cons c ls ih =>
    have hc : c ≠ ']' := by
      intro hcs
      exact h (by simp [hcs])
    have hls : ']' ∉ ls := fun hs => h (List.mem_cons_of_mem _ hs)
    simp only [List.cons_append, rbAux, if_neg hc]
    exact ih hls _

theorem rbAux_none_of_no_bracket {l : Str} (h : '[' ∉ l) : rbAux l none = l := by
  induction l with
  | nil => rfl
  | cons c rest ih =>
    have hc : c ≠ '[' := by
      intro hcs
      exact h (by simp [hcs])
    have hrest : '[' ∉ rest := fun hs => h (List.mem_cons_of_mem _ hs)
    simp only [rbAux, if_neg hc, ih hrest]

theorem digitRuns_cons_of_neg {c : Char} {rest : Str} (hc : ¬ c.isDigit) :
    digitRuns (c :: rest) = digitRuns rest := by
  simp [digitRuns, drAux, hc]

theorem drAux_all_digits {l cur : Str} (h : ∀ c ∈ l, c.isDigit)
    (hne : cur.reverse ++ l ≠ []) : drAux l cur = [cur.reverse ++ l] := by
  induction l generalizing cur with
  | nil =>
    have hcur : ¬ cur.isEmpty := by
      simp only [List.append_nil] at hne
      simpa [List.isEmpty_iff] using fun hn => hne (by simp [hn])
    simp [drAux, hcur]
  | cons c rest ih =>
    have hc : c.isDigit := h c (List.mem_cons_self c rest)
    have hrest : ∀ x ∈ rest, x.isDigit := fun x hx => h x (List.mem_cons_of_mem _ hx)
    simp only [drAux, hc, if_true]
    rw [ih hrest (by simp)]
    simp

theorem digitRuns_of_all_digits {l : Str} (hne : l ≠ []) (h : ∀ c ∈ l, c.isDigit) :
    digitRuns l = [l] := by
  unfold digitRuns
  rw [drAux_all_digits h (by simpa using hne)]
  simp

theorem drAux_append_cons {d : Str} {c : Char} {rest cur : Str}
    (hall : ∀ x ∈ d, x.isDigit) (hc : ¬ c.isDigit) (hne : cur.reverse ++ d ≠ []) :
    drAux (d ++ c :: rest) cur = (cur.reverse ++ d) :: drAux rest [] := by
  induction d generalizing cur with
  | nil =>
    have hcur : ¬ cur.isEmpty := by
      simp only [List.append_nil] at hne
      simpa [List.isEmpty_iff] using fun hn => hne (by simp [hn])
    simp [drAux, hc, hcur]
  | cons x xs ih =>
    have hx : x.isDigit := hall x (List.mem_cons_self x xs)
    have hxs : ∀ a ∈ xs, a.isDigit := fun a ha => hall a (List.mem_cons_of_mem _ ha)
    simp only [List.cons_append, drAux, hx, if_true, List.append_eq]
    rw [ih hxs (by simp)]
    simp

theorem digitRuns_append_cons {d : Str} {c : Char} {rest : Str} (hne : d ≠ [])
    (hall : ∀ x ∈ d, x.isDigit) (hc : ¬ c.isDigit) :
    digitRuns (d ++ c :: rest) = d :: digitRuns rest := by
  unfold digitRuns
  rw [drAux_append_cons hall hc (by simpa using hne)]
  simp

theorem digitChar_isDigit (d : Nat) : (digitChar d).isDigit := by
  unfold digitChar
  split <;> decide

theorem digitChar_toNat {d : Nat} (h : d < 10) : (digitChar d).toNat = 48 + d := by
  interval_cases d <;> decide

theorem natDigits_ne_nil (n : Nat) : natDigits n ≠ [] := by
  rw [natDigits]
  split <;> simp

theorem natDigits_all_digits (n : Nat) : ∀ c ∈ natDigits n, c.isDigit := by
  induction n using Nat.strong_induction_on with
  | _ n ih =>
    rw [natDigits]
    split
    · intro c hc
      simp only [List.mem_singleton] at hc
      subst hc
      exact digitChar_isDigit n
    · intro c hc
      rcases List.mem_append.mp hc with h1 | h1
      · exact ih (n / 10) (Nat.div_lt_self (by omega) (by omega)) c h1
      · simp only [List.mem_singleton] at h1
        subst h1
        exact digitChar_isDigit (n % 10)

theorem parseDigits_append_singleton (s : Str) (c : Char) :
    parseDigits (s ++ [c]) = 10 * parseDigits s + (c.toNat - 48) := by
  simp [parseDigits, List.foldl_append]

theorem parseDigits_natDigits (n : Nat) : parseDigits (natDigits n) = n := by
  induction n using Nat.strong_induction_on with
  | _ n ih =>
    rw [natDigits]
    split
    · rename_i h
      simp only [parseDigits, List.foldl_cons, List.foldl_nil]
      rw [digitChar_toNat h]
      omega
    · rename_i h
      rw [parseDigits_append_singleton, ih (n / 10) (Nat.div_lt_self (by omega) (by omega)),
        digitChar_toNat (Nat.mod_lt n (by omega))]
      omega

/-- Digit characters are none of the punctuation characters of the
identifier grammar. -/
theorem isDigit_ne_punct {c : Char} (h : c.isDigit) :
    c ≠ ']' ∧ c ≠ '!' ∧ c ≠ '[' ∧ c ≠ '/' ∧ c ≠ ',' ∧ c ≠ ':' ∧ c ≠ ')' := by
  refine ⟨?_, ?_, ?_, ?_, ?_, ?_, ?_⟩ <;>
    (intro hc; subst hc; exact absurd h (by decide))

/-- Stripping the wrapper of a well-formed `epubcfi(...)` string yields its
interior. -/
theorem jsSubstring_wrapper (mid : Str) :
    jsSubstring ("epubcfi(".toList ++ mid ++ [')']) 8
      (("epubcfi(".toList ++ mid ++ [')']).length - 1) = mid := by
  have hlen : ("epubcfi(".toList ++ mid ++ [')']).length = 9 + mid.length := by
    simp [List.length_append]
    omega
  have hlen8 : ("epubcfi(".toList ++ mid).length = 8 + mid.length := by
    simp [List.length_append]
    omega
  rw [hlen]
  unfold jsSubstring
  have h1 : 9 + mid.length - 1 = 8 + mid.length := by omega
  have hmin : min 8 (8 + mid.length) = 8 := by omega
  have hmax : max 8 (8 + mid.length) = 8 + mid.length := by omega
  rw [h1, hmin, hmax]
  rw [show "epubcfi(".toList ++ mid ++ [')'] = ("epubcfi(".toList ++ mid) ++ [')'] by
    simp [List.append_assoc]]
  rw [List.take_left' hlen8]
  have h8 : ("epubcfi(".toList).length = 8 := by decide
  rw [List.drop_left' h8]

theorem parseCFIForSorting_wrapped (mid : Str) :
    parseCFIForSorting ("epubcfi(".toList ++ mid ++ [')']) =
      (if ((splitOnChar '!' mid).flatMap
            (fun part => (digitRuns (removeBrackets part)).map parseDigits)).isEmpty
       then [0]
       else (splitOnChar '!' mid).flatMap
            (fun part => (digitRuns (removeBrackets part)).map parseDigits)) := by
  unfold parseCFIForSorting
  have hpre : ("epubcfi(".toList).isPrefixOf ("epubcfi(".toList ++ mid ++ [')']) = true := by
    rw [List.isPrefixOf_iff_prefix]
    exact ⟨mid ++ [')'], by simp⟩
  rw [if_pos hpre, jsSubstring_wrapper]

end AppleBooksDatabase

/-! ## The coalescing pass: loop/specification correspondence (claims C2, C6, C7) -/

namespace AppleBooksDatabase

theorem coalesceSpec_nil : coalesceSpec [] = [] := by
  rw [coalesceSpec]
  split
  · rfl
  · rename_i anchor rest h
    simp at h

theorem coalesceSpec_trailing (g0 : Annotation) (gs : List Annotation)
    (h : (g0 :: gs).dropWhile (fun a => decide (isNullLoc a)) = []) :
    coalesceSpec (g0 :: gs)
      = [{ g0 with selectedText := joinNL ((g0 :: gs).map (·.selectedText)) }] := by
  rw [coalesceSpec]
  split
  · rfl
  · rename_i anchor rest h0
    rw [h] at h0
    cases h0

theorem coalesceSpec_cons_eq (l : List Annotation) (anchor : Annotation)
    (rest : List Annotation)
    (h : l.dropWhile (fun a => decide (isNullLoc a)) = anchor :: rest) :
    coalesceSpec l =
      (if (l.takeWhile (fun a => decide (isNullLoc a))).isEmpty then anchor
       else { anchor with
              selectedText :=
                joinNL (((l.takeWhile (fun a => decide (isNullLoc a))) ++ [anchor]).map
                  (·.selectedText)) })
        :: coalesceSpec rest := by
  rw [coalesceSpec]
  split
  · rename_i h0
    rw [h0] at h
    cases h
  · rename_i anchor' rest' h0
    rw [h0] at h
    injection h with h1 h2
    subst h1
    subst h2
    rfl

theorem gcAux_eq_coalesceSpec :
    ∀ (l g : List Annotation), (∀ a ∈ g, isNullLoc a) →
      gcAux l g = coalesceSpec (g ++ l) := by
  intro l
  induction l with
  | nil =>
    intro g hg
    have hdrop : g.dropWhile (fun a => decide (isNullLoc a)) = [] :=
      List.dropWhile_eq_nil_iff.mpr (fun x hx => by simpa using hg x hx)
    rw [List.append_nil]
    cases g with
    | nil => exact coalesceSpec_nil.symm
    | cons g0 gs => exact (coalesceSpec_trailing g0 gs hdrop).symm
  | cons ann rest ih =>
    intro g hg
    by_cases hnull : isNullLoc ann
    · simp only [gcAux, if_pos hnull]
      rw [ih (g ++ [ann]) ?hall]
      · rw [← List.append_cons]
      · intro a ha
        rcases List.mem_append.mp ha with h1 | h1
        · exact hg a h1
        · simp only [List.mem_singleton] at h1
          subst h1
          exact hnull
    · have hdropg : (g ++ ann :: rest).dropWhile (fun a => decide (isNullLoc a))
          = ann :: rest := by
        rw [List.dropWhile_append_of_pos (fun a ha => by simpa using hg a ha),
          List.dropWhile_cons_of_neg (by simpa using hnull)]
      have htakeg : (g ++ ann :: rest).takeWhile (fun a => decide (isNullLoc a)) = g := by
        rw [List.takeWhile_append_of_pos (fun a ha => by simpa using hg a ha),
          List.takeWhile_cons_of_neg (by simpa using hnull), List.append_nil]
      rw [coalesceSpec_cons_eq (g ++ ann :: rest) ann rest hdropg, htakeg]
      cases g with
      | nil =>
        simp only [gcAux, if_neg hnull, List.isEmpty_nil, if_true]
        rw [ih [] (by simp)]
        rfl
      | cons g0 gs =>
        simp only [gcAux, if_neg hnull, List.isEmpty_cons, Bool.false_eq_true, if_false]
        rw [ih [] (by simp)]
        rfl

theorem groupConsecutive_eq_coalesceSpec (l : List Annotation) :
    groupConsecutiveNullLocationAnnotations l = coalesceSpec l := by
  have h := gcAux_eq_coalesceSpec l [] (by intro a ha; simp at ha)
  simpa [groupConsecutiveNullLocationAnnotations] using h

/-- The text of the record emitted for a pending group and its anchor. -/
theorem merged_selectedText (frag : List Annotation) (anchor : Annotation) :
    (if frag.isEmpty then anchor
     else { anchor with
            selectedText := joinNL ((frag ++ [anchor]).map (·.selectedText)) }).selectedText
      = joinNL ((frag ++ [anchor]).map (·.selectedText)) := by
  cases frag with
  | nil => simp [joinNL]
  | cons f fs => simp

/-- The emitted record keeps the anchor's positional fields. -/
theorem merged_isNullLoc_iff (frag : List Annotation) (anchor : Annotation) :
    (isNullLoc (if frag.isEmpty then anchor
      else { anchor with
             selectedText := joinNL ((frag ++ [anchor]).map (·.selectedText)) })
      ↔ isNullLoc anchor) := by
  cases frag with
  | nil => simp
  | cons f fs => simp [isNullLoc]

theorem coalesceSpec_chunks_aux :
    ∀ (n : Nat) (l : List Annotation), l.length ≤ n →
      ∃ chunks : List (List Annotation),
        chunks.flatten = l ∧ (∀ g ∈ chunks, g ≠ []) ∧
        (coalesceSpec l).map (·.selectedText) =
          chunks.map (fun g => joinNL (g.map (·.selectedText))) := by
  intro n
  induction n with
  | zero =>
    intro l hl
    have hnil : l = [] := List.length_eq_zero.mp (Nat.le_zero.mp hl)
    subst hnil
    exact ⟨[], rfl, by simp, by simp [coalesceSpec_nil]⟩
  | succ n ihn =>
    intro l hl
    cases hdrop : l.dropWhile (fun a => decide (isNullLoc a)) with
    | nil =>
      cases l with
      | nil => exact ⟨[], rfl, by simp, by simp [coalesceSpec_nil]⟩
      | cons g0 gs =>
        refine ⟨[g0 :: gs], by simp, by simp, ?_⟩
        rw [coalesceSpec_trailing g0 gs hdrop]
        simp
    | cons anchor rest =>
      have hrest : rest.length ≤ n := by
        have hsub : (anchor :: rest).length ≤ l.length := by
          rw [← hdrop]
          exact (List.dropWhile_sublist _).length_le
        simp only [List.length_cons] at hsub
        omega
      obtain ⟨chunks, hjoin, hne, hmap⟩ := ihn rest hrest
      refine ⟨(l.takeWhile (fun a => decide (isNullLoc a)) ++ [anchor]) :: chunks,
        ?_, ?_, ?_⟩
      · have hsplit : l.takeWhile (fun a => decide (isNullLoc a)) ++ (anchor :: rest) = l := by
          conv_rhs => rw [← List.takeWhile_append_dropWhile (fun a => decide (isNullLoc a)) l]
          rw [hdrop]
        rw [List.flatten_cons, hjoin, List.append_assoc, List.singleton_append]
        exact hsplit
      · intro g hg
        rcases List.mem_cons.mp hg with h1 | h1
        · subst h1
          simp
        · exact hne g h1
      · rw [coalesceSpec_cons_eq l anchor rest hdrop]
        simp only [List.map_cons, hmap, merged_selectedText]

theorem coalesceSpec_init_anchored :
    ∀ (n : Nat) (l : List Annotation), l.length ≤ n →
      ∀ pre x post, coalesceSpec l = pre ++ x :: post → post ≠ [] → ¬ isNullLoc x := by
  intro n
  induction n with
  | zero =>
    intro l hl pre x post heq _
    have hnil : l = [] := List.length_eq_zero.mp (Nat.le_zero.mp hl)
    subst hnil
    rw [coalesceSpec_nil] at heq
    exact absurd heq.symm (by simp)
  | succ n ihn =>
    intro l hl pre x post heq hpost
    cases hdrop : l.dropWhile (fun a => decide (isNullLoc a)) with
    | nil =>
      cases l with
      | nil =>
        rw [coalesceSpec_nil] at heq
        exact absurd heq.symm (by simp)
      | cons g0 gs =>
        rw [coalesceSpec_trailing g0 gs hdrop] at heq
        exfalso
        apply hpost
        have hlength : (pre ++ x :: post).length = 1 := by
          rw [← heq]
          rfl
        rw [List.length_append, List.length_cons] at hlength
        exact List.length_eq_zero.mp (by omega)
    | cons anchor rest =>
      rw [coalesceSpec_cons_eq l anchor rest hdrop] at heq
      have hanchored : ¬ isNullLoc anchor := by
        have h0 := List.head?_dropWhile_not (fun a => decide (isNullLoc a)) l
        rw [hdrop] at h0
        simpa using h0
      have hrest : rest.length ≤ n := by
        have hsub : (anchor :: rest).length ≤ l.length := by
          rw [← hdrop]
          exact (List.dropWhile_sublist _).length_le
        simp only [List.length_cons] at hsub
        omega
      cases pre with
      | nil =>
        rw [List.nil_append] at heq
        injection heq with h1 h2
        rw [← h1]
        rw [merged_isNullLoc_iff]
        exact hanchored
      | cons p pre' =>
        rw [List.cons_append] at heq
        injection heq with h1 h2
        exact ihn rest hrest pre' x post h2 hpost

end AppleBooksDatabase

/-! ## Lemmas about extractChapterFromCFI (claim C8) -/

namespace MarkdownGenerator

theorem extractChapterFromCFI_of_firstBracket_none {cfi : Str}
    (h : firstBracket cfi = none) : extractChapterFromCFI cfi = none := by
  unfold extractChapterFromCFI
  split
  · rfl
  · rw [h]

theorem extractChapterFromCFI_of_firstBracket_some {cfi cid : Str}
    (h : firstBracket cfi = some cid) :
    extractChapterFromCFI cfi = some (classifyChapterId cid) := by
  unfold extractChapterFromCFI
  split
  · rename_i hemp
    exfalso
    have hn : cfi = [] := List.isEmpty_iff.mp hemp
    subst hn
    simp [firstBracket] at h
  · rw [h]

end MarkdownGenerator

/-! ## Claim theorems -/

open AppleBooksDatabase

/-- C1 counterexample: `sortAnnotationsByCFI` does not compare
`physicalLocation` values.  Two annotations with physical locations 45 and
12 whose location strings parse to keys `[2]` and `[4]` sort to
`[45, 12]`, not `[12, 45]` as the claim states. -/
theorem c1_counterexample :
    (sortAnnotationsByCFI [annP45, annP12]).map (·.physicalLocation)
        ≠ [some 12, some 45] ∧
    (sortAnnotationsByCFI [annP45, annP12]).map (·.physicalLocation)
        = [some 45, some 12] := by
  constructor
  · decide
  · decide

/-- C1 (amended): `sortAnnotationsByCFI` ignores `physicalLocation`
entirely; it stably sorts solely by the comparator on
`parseCFIForSorting(location || '')` keys (element-wise, then by length).
The comparator is invariant under any change of the two records'
physical locations, the output is a permutation of the input, it is
pairwise ordered by the comparator, and on the claim's example records the
physical locations come out as `[45, 12]`. -/
theorem c1_amended :
    (∀ (a b : Annotation) (p q : Option Int),
      compareCFI { a with physicalLocation := p } { b with physicalLocation := q }
        = compareCFI a b) ∧
    (∀ l : List Annotation, (sortAnnotationsByCFI l).Perm l) ∧
    (∀ l : List Annotation, (sortAnnotationsByCFI l).Pairwise cfiLE) ∧
    (sortAnnotationsByCFI [annP45, annP12]).map (·.physicalLocation)
        = [some 45, some 12] := by
  refine ⟨fun a b p q => rfl, sortAnnotationsByCFI_perm, sortAnnotationsByCFI_pairwise, ?_⟩
  decide

/-- C2: the coalescing loop of `groupConsecutiveNullLocationAnnotations`
agrees with the specification's description (split off the pending group of
consecutive unanchored fragments, merge it into the next anchored record
carrying the anchor's fields with the texts newline-joined group-first, emit
a trailing group on the first fragment's fields), and on the claim's example
it yields one record with text `"A\nB\nC"` and the anchor's fields. -/
theorem c2_ok :
    (∀ l : List Annotation,
      groupConsecutiveNullLocationAnnotations l = coalesceSpec l) ∧
    groupConsecutiveNullLocationAnnotations [annA, annB, annC]
      = [{ annC with selectedText := "A\nB\nC".toList }] := by
  refine ⟨groupConsecutive_eq_coalesceSpec, ?_⟩
  decide

/-- C6: coalescing loses no text: the output texts are exactly the input
texts, grouped into consecutive nonempty chunks and newline-joined. -/
theorem c6_ok :
    ∀ l : List Annotation,
      ∃ chunks : List (List Annotation),
        chunks.flatten = l ∧ (∀ g ∈ chunks, g ≠ []) ∧
        (groupConsecutiveNullLocationAnnotations l).map (·.selectedText) =
          chunks.map (fun g => joinNL (g.map (·.selectedText))) := by
  intro l
  obtain ⟨chunks, h1, h2, h3⟩ := coalesceSpec_chunks_aux l.length l (le_refl _)
  refine ⟨chunks, h1, h2, ?_⟩
  rw [groupConsecutive_eq_coalesceSpec]
  exact h3

/-- C7: in the output of `groupConsecutiveNullLocationAnnotations`, a record
with both `location` and `physicalLocation` null can only be the final
record. -/
theorem c7_ok :
    ∀ (l pre post : List Annotation) (x : Annotation),
      groupConsecutiveNullLocationAnnotations l = pre ++ x :: post →
      x.location = none → x.physicalLocation = none → post = [] := by
  intro l pre post x heq hloc hphys
  by_contra hpost
  refine coalesceSpec_init_anchored l.length l (le_refl _) pre x post ?_ hpost ⟨hloc, hphys⟩
  rw [← groupConsecutive_eq_coalesceSpec]
  exact heq

/-- Witness for C7 at a concrete input: a single trailing unanchored
fragment is emitted as the final record. -/
theorem c7_witness : ([] : List Annotation) = [] :=
  c7_ok [annA] [] [] annA (by decide) rfl rfl

/-- C9 counterexample: `sortAnnotationsByCFI` uses `Array.prototype.sort`,
which sorts its receiver in place; after the call the caller's array no
longer holds the original sequence. -/
theorem c9_counterexample :
    (sortAnnotationsByCFIEffect [annP12, annP45]).argAfter ≠ [annP12, annP45] := by
  decide

/-- C9 (amended): `sortAnnotationsByCFI` sorts in place: after the call the
argument array's contents equal the returned sorted sequence (the same
array object), which is a permutation of the input rather than the input's
original order. -/
theorem c9_amended :
    ∀ l : List Annotation,
      (sortAnnotationsByCFIEffect l).argAfter = (sortAnnotationsByCFIEffect l).ret ∧
      ((sortAnnotationsByCFIEffect l).ret).Perm l :=
  fun l => ⟨rfl, sortAnnotationsByCFI_perm l⟩

/-- C5 counterexample: the enrichment merge of `importAllBooks` ignores the
`title` the OPF parser can return: with a present, non-empty enrichment
title, the merged record still carries the base's title. -/
theorem c5_counterexample :
    sampleEpub.title = some "Epub Title".toList ∧
    "Epub Title".toList ≠ [] ∧
    (mergeEpubMetadata sampleBook (some sampleEpub)).title ≠ "Epub Title".toList := by
  refine ⟨rfl, by decide, by decide⟩

/-- C5 (amended): the merge never alters `assetId`, returns the base
unchanged for an absent enrichment, and applies the enrichment-wins,
field-by-field precedence exactly to the seven fields isbn, language,
publisher, publicationDate, rights, subjects and cover; every other base
field — including `title` and `author`, even when the enrichment provides
them — is carried from the base unchanged. -/
theorem c5_amended (book : BookDetail) (m : EpubMetadata) :
    mergeEpubMetadata book none = book ∧
    (mergeEpubMetadata book (some m)).assetId = book.assetId ∧
    (mergeEpubMetadata book (some m)).title = book.title ∧
    (mergeEpubMetadata book (some m)).author = book.author ∧
    (∀ s : Str, m.isbn = some s → s ≠ [] →
      (mergeEpubMetadata book (some m)).isbn = some s) ∧
    (m.isbn = none → (mergeEpubMetadata book (some m)).isbn = book.isbn) ∧
    (∀ s : Str, m.language = some s → s ≠ [] →
      (mergeEpubMetadata book (some m)).language = some s) ∧
    (m.language = none → (mergeEpubMetadata book (some m)).language = book.language) ∧
    (∀ s : Str, m.publisher = some s → s ≠ [] →
      (mergeEpubMetadata book (some m)).publisher = some s) ∧
    (m.publisher = none → (mergeEpubMetadata book (some m)).publisher = book.publisher) ∧
    (∀ s : Str, m.publicationDate = some s → s ≠ [] →
      (mergeEpubMetadata book (some m)).publicationDate = some s) ∧
    (m.publicationDate = none →
      (mergeEpubMetadata book (some m)).publicationDate = book.publicationDate) ∧
    (∀ s : Str, m.rights = some s → s ≠ [] →
      (mergeEpubMetadata book (some m)).rights = some s) ∧
    (m.rights = none → (mergeEpubMetadata book (some m)).rights = book.rights) ∧
    (∀ ss : List Str, m.subjects = some ss →
      (mergeEpubMetadata book (some m)).subjects = some ss) ∧
    (m.subjects = none → (mergeEpubMetadata book (some m)).subjects = book.subjects) ∧
    (∀ s : Str, m.cover = some s → s ≠ [] →
      (mergeEpubMetadata book (some m)).cover = some s) ∧
    (m.cover = none → (mergeEpubMetadata book (some m)).cover = book.cover) ∧
    (mergeEpubMetadata book (some m)).description = book.description ∧
    (mergeEpubMetadata book (some m)).epubId = book.epubId ∧
    (mergeEpubMetadata book (some m)).path = book.path ∧
    (mergeEpubMetadata book (some m)).genre = book.genre ∧
    (mergeEpubMetadata book (some m)).genres = book.genres ∧
    (mergeEpubMetadata book (some m)).year = book.year ∧
    (mergeEpubMetadata book (some m)).pageCount = book.pageCount ∧
    (mergeEpubMetadata book (some m)).rating = book.rating ∧
    (mergeEpubMetadata book (some m)).comments = book.comments ∧
    (mergeEpubMetadata book (some m)).readingProgress = book.readingProgress ∧
    (mergeEpubMetadata book (some m)).creationDate = book.creationDate ∧
    (mergeEpubMetadata book (some m)).lastOpenDate = book.lastOpenDate ∧
    (mergeEpubMetadata book (some m)).modificationDate = book.modificationDate := by
  refine ⟨rfl, rfl, rfl, rfl, ?_, ?_, ?_, ?_, ?_, ?_, ?_, ?_, ?_, ?_, ?_, ?_, ?_, ?_,
    rfl, rfl, rfl, rfl, rfl, rfl, rfl, rfl, rfl, rfl, rfl, rfl, rfl⟩ <;>
    first
      | (intro s hs hne
         simp [mergeEpubMetadata, jsOrStr, hs, List.isEmpty_iff, hne])
      | (intro ss hss
         simp [mergeEpubMetadata, jsOrList, hss])
      | (intro hn
         simp [mergeEpubMetadata, jsOrStr, jsOrList, hn])

/-- Witness for C5 (amended) at a concrete base and enrichment: the
enrichment's non-empty isbn wins. -/
theorem c5_witness :
    (mergeEpubMetadata sampleBook (some sampleEpub)).isbn = some "999".toList :=
  (c5_amended sampleBook sampleEpub).2.2.2.2.1 "999".toList rfl (by decide)

/-- C8: `extractChapterFromCFI` classifies the first nonempty bracketed
segment through the ordered rule chain (first match wins); the claim's two
examples produce "Chapter 4" and "How to Begin"; a string with no bracketed
segment yields `null`; the embedding is total, so no exception escapes. -/
theorem c8_ok :
    MarkdownGenerator.extractChapterFromCFI "epubcfi(/6/12[chapter_4]!/4/10)".toList
        = some "Chapter 4".toList ∧
    MarkdownGenerator.extractChapterFromCFI "epubcfi(/6/2[text-5]!/2)".toList
        = some "How to Begin".toList ∧
    (∀ cfi : Str, firstBracket cfi = none →
      MarkdownGenerator.extractChapterFromCFI cfi = none) ∧
    (∀ cfi cid : Str, firstBracket cfi = some cid →
      MarkdownGenerator.extractChapterFromCFI cfi
        = some (MarkdownGenerator.classifyChapterId cid)) := by
  refine ⟨by decide, by decide, ?_, ?_⟩
  · intro cfi h
    exact MarkdownGenerator.extractChapterFromCFI_of_firstBracket_none h
  · intro cfi cid h
    exact MarkdownGenerator.extractChapterFromCFI_of_firstBracket_some h

/-- Witness for C8 at a concrete input with no bracketed segment. -/
theorem c8_witness :
    MarkdownGenerator.extractChapterFromCFI "no brackets here".toList = none :=
  c8_ok.2.2.1 "no brackets here".toList (by decide)

/-- C10: an annotation with a null location, and one whose location lacks
the `epubcfi(` wrapper, get the fallback sort key `[0]`; and in the sorted
output no annotation whose key starts with an integer ≥ 1 ever precedes an
annotation with key `[0]`. -/
theorem c10_ok :
    (∀ a : Annotation, a.location = none → annotationSortKey a = [0]) ∧
    (∀ (a : Annotation) (s : Str), a.location = some s →
      ¬ ("epubcfi(".toList).isPrefixOf s = true → annotationSortKey a = [0]) ∧
    (∀ l : List Annotation,
      (sortAnnotationsByCFI l).Pairwise
        (fun x y => ¬(1 ≤ (annotationSortKey x).headD 0 ∧ annotationSortKey y = [0]))) := by
  refine ⟨?_, ?_, ?_⟩
  · intro a ha
    unfold annotationSortKey
    rw [ha]
    exact parseCFIForSorting_of_no_wrapper [] (by decide)
  · intro a s ha hpre
    unfold annotationSortKey
    rw [ha]
    exact parseCFIForSorting_of_no_wrapper s hpre
  · intro l
    refine (sortAnnotationsByCFI_pairwise l).imp ?_
    intro x y hxy
    rintro ⟨h1, h2⟩
    unfold cfiLE compareCFI at hxy
    rw [h2] at hxy
    cases hkx : annotationSortKey x with
    | nil => rw [hkx] at h1; simp at h1
    | cons k0 ks =>
      rw [hkx] at h1 hxy
      simp only [List.headD_cons] at h1
      have hk0 : k0 ≠ 0 := by omega
      simp only [cmpNatList, ne_eq, hk0, not_false_iff, if_true] at hxy
      omega

/-- Witness for C10 at concrete annotations: a null location and a
non-wrapped location both yield the key `[0]`. -/
theorem c10_witness :
    annotationSortKey annA = [0] ∧ annotationSortKey annNoPfx = [0] :=
  ⟨c10_ok.1 annA rfl,
   c10_ok.2.1 annNoPfx "page 12".toList rfl (by decide)⟩

/-- C3: on a well-formed wrapped identifier of the shape
`epubcfi(N1!N2[label]/N3,:N4,:N5)` — where the label contains neither `]`
nor `!` (it may contain digits) — the parser returns exactly
`[N1, N2, N3, N4, N5]`, left to right, the label's characters never
contributing. -/
theorem c3_ok (n1 n2 n3 n4 n5 : Nat) (label : Str)
    (hlabel : ∀ c ∈ label, c ≠ ']' ∧ c ≠ '!') :
    parseCFIForSorting
      ("epubcfi(".toList ++ natDigits n1 ++ ['!'] ++ natDigits n2 ++ ['['] ++ label
        ++ [']', '/'] ++ natDigits n3 ++ [',', ':'] ++ natDigits n4 ++ [',', ':']
        ++ natDigits n5 ++ [')'])
      = [n1, n2, n3, n4, n5] := by
  have hd1 := natDigits_all_digits n1
  have hd2 := natDigits_all_digits n2
  have hd3 := natDigits_all_digits n3
  have hd4 := natDigits_all_digits n4
  have hd5 := natDigits_all_digits n5
  have hshape :
      "epubcfi(".toList ++ natDigits n1 ++ ['!'] ++ natDigits n2 ++ ['['] ++ label
        ++ [']', '/'] ++ natDigits n3 ++ [',', ':'] ++ natDigits n4 ++ [',', ':']
        ++ natDigits n5 ++ [')']
      = "epubcfi(".toList
          ++ (natDigits n1 ++ '!' :: (natDigits n2 ++ '[' :: (label ++ ']' :: '/' ::
              (natDigits n3 ++ ',' :: ':' :: (natDigits n4 ++ ',' :: ':' :: natDigits n5)))))
          ++ [')'] := by
    simp [List.append_assoc]
  rw [hshape, parseCFIForSorting_wrapped]
  have hsplit :
      splitOnChar '!'
        (natDigits n1 ++ '!' :: (natDigits n2 ++ '[' :: (label ++ ']' :: '/' ::
          (natDigits n3 ++ ',' :: ':' :: (natDigits n4 ++ ',' :: ':' :: natDigits n5)))))
      = [natDigits n1,
         natDigits n2 ++ '[' :: (label ++ ']' :: '/' ::
          (natDigits n3 ++ ',' :: ':' :: (natDigits n4 ++ ',' :: ':' :: natDigits n5)))] := by
    rw [splitOnChar_append (fun h => absurd (hd1 _ h) (by decide)),
      splitOnChar_of_not_mem ?hnb]
    case hnb =>
      intro hmem
      simp only [List.mem_append, List.mem_cons] at hmem
      rcases hmem with h | h | h | h | h | h | h | h | h | h | h | h
      all_goals
        first
          | exact (hlabel _ h).2 rfl
          | exact absurd (hd2 _ h) (by decide)
          | exact absurd (hd3 _ h) (by decide)
          | exact absurd (hd4 _ h) (by decide)
          | exact absurd (hd5 _ h) (by decide)
          | exact absurd h (by decide)
  rw [hsplit]
  have hrb1 : removeBrackets (natDigits n1) = natDigits n1 :=
    rbAux_none_of_no_bracket (fun h => absurd (hd1 _ h) (by decide))
  have hrb2 :
      removeBrackets
        (natDigits n2 ++ '[' :: (label ++ ']' :: '/' ::
          (natDigits n3 ++ ',' :: ':' :: (natDigits n4 ++ ',' :: ':' :: natDigits n5))))
      = natDigits n2 ++ '/' ::
          (natDigits n3 ++ ',' :: ':' :: (natDigits n4 ++ ',' :: ':' :: natDigits n5)) := by
    unfold removeBrackets
    rw [rbAux_append_none (fun h => absurd (hd2 _ h) (by decide))]
    have hstep :
        rbAux ('[' :: (label ++ ']' :: '/' ::
            (natDigits n3 ++ ',' :: ':' :: (natDigits n4 ++ ',' :: ':' :: natDigits n5)))) none
        = rbAux (label ++ ']' :: '/' ::
            (natDigits n3 ++ ',' :: ':' :: (natDigits n4 ++ ',' :: ':' :: natDigits n5)))
            (some []) := by
      simp [rbAux]
    rw [hstep, rbAux_close (fun h => (hlabel _ h).1 rfl) []]
    rw [rbAux_none_of_no_bracket ?hnb2]
    case hnb2 =>
      intro hmem
      simp only [List.mem_append, List.mem_cons] at hmem
      rcases hmem with h | h | h | h | h | h | h | h
      all_goals
        first
          | exact absurd (hd3 _ h) (by decide)
          | exact absurd (hd4 _ h) (by decide)
          | exact absurd (hd5 _ h) (by decide)
          | exact absurd h (by decide)
  have hdr1 : digitRuns (natDigits n1) = [natDigits n1] :=
    digitRuns_of_all_digits (natDigits_ne_nil n1) hd1
  have hdr2 :
      digitRuns
        (natDigits n2 ++ '/' ::
          (natDigits n3 ++ ',' :: ':' :: (natDigits n4 ++ ',' :: ':' :: natDigits n5)))
      = [natDigits n2, natDigits n3, natDigits n4, natDigits n5] := by
    rw [digitRuns_append_cons (natDigits_ne_nil n2) hd2 (by decide),
      digitRuns_append_cons (natDigits_ne_nil n3) hd3 (by decide),
      digitRuns_cons_of_neg (by decide),
      digitRuns_append_cons (natDigits_ne_nil n4) hd4 (by decide),
      digitRuns_cons_of_neg (by decide),
      digitRuns_of_all_digits (natDigits_ne_nil n5) hd5]
  simp only [List.flatMap_cons, List.flatMap_nil, List.append_nil, hrb1, hrb2, hdr1, hdr2,
    List.map_cons, List.map_nil, parseDigits_natDigits]
  simp

/-- Witness for C3 at `N1..N5 = 6,4,2,0,1` and label `chap1`. -/
theorem c3_witness :
    parseCFIForSorting
      ("epubcfi(".toList ++ natDigits 6 ++ ['!'] ++ natDigits 4 ++ ['['] ++ "chap1".toList
        ++ [']', '/'] ++ natDigits 2 ++ [',', ':'] ++ natDigits 0 ++ [',', ':']
        ++ natDigits 1 ++ [')'])
      = [6, 4, 2, 0, 1] :=
  c3_ok 6 4 2 0 1 "chap1".toList (by decide)
